import Mathlib

/-!
Verification development for the envelop plugin pipeline and its
response-cache engine.  The repository ships the test-suite and the
documentation of the engine; the engine itself is embedded here from the
specification, and the theorems check the specified behaviour against
that embedding.
-/

/-! ### A structural ordering on strings

Used to canonicalize JSON objects by sorting their keys.  (The library
order on `String` is defined through iterators and does not reduce in the
kernel, so we use a direct lexicographic comparison on the character
lists.) -/

def charsLe : List Char → List Char → Bool
  | [], _ => true
  | _ :: _, [] => false
  | a :: xs, b :: ys =>
    if a.toNat < b.toNat then true
    else if b.toNat < a.toNat then false
    else charsLe xs ys

def strLe (a b : String) : Bool := charsLe a.data b.data

theorem charsLe_total : ∀ xs ys, charsLe xs ys = true ∨ charsLe ys xs = true := by
  intro xs
  induction xs with
  | nil => intro ys; left; simp [charsLe]
  | cons a xs ih =>
    intro ys
    cases ys with
    | nil => right; simp [charsLe]
    | cons b ys =>
      simp only [charsLe]
      rcases Nat.lt_trichotomy a.toNat b.toNat with h | h | h
      · left; simp [h]
      · have hba : ¬ b.toNat < a.toNat := by omega
        have hab : ¬ a.toNat < b.toNat := by omega
        rcases ih ys with h2 | h2
        · left; simp [hab, hba, h2]
        · right; simp [hab, hba, h2]
      · right; simp [h]

theorem charsLe_trans :
    ∀ xs ys zs, charsLe xs ys = true → charsLe ys zs = true → charsLe xs zs = true := by
  intro xs
  induction xs with
  | nil => intro ys zs _ _; simp [charsLe]
  | cons a xs ih =>
    intro ys zs h1 h2
    cases ys with
    | nil => simp [charsLe] at h1
    | cons b ys =>
      cases zs with
      | nil => simp [charsLe] at h2
      | cons c zs =>
        simp only [charsLe] at h1 h2 ⊢
        by_cases hab : a.toNat < b.toNat
        · by_cases hbc : b.toNat < c.toNat
          · have hac : a.toNat < c.toNat := by omega
            simp [hac]
          · by_cases hcb : c.toNat < b.toNat
            · simp [hbc, hcb] at h2
            · have hac : a.toNat < c.toNat := by omega
              simp [hac]
        · by_cases hba : b.toNat < a.toNat
          · simp [hab, hba] at h1
          · by_cases hbc : b.toNat < c.toNat
            · have hac : a.toNat < c.toNat := by omega
              simp [hac]
            · by_cases hcb : c.toNat < b.toNat
              · simp [hbc, hcb] at h2
              · have h1' : charsLe xs ys = true := by simpa [hab, hba] using h1
                have h2' : charsLe ys zs = true := by simpa [hbc, hcb] using h2
                have hac : ¬ a.toNat < c.toNat := by omega
                have hca : ¬ c.toNat < a.toNat := by omega
                simp [hac, hca, ih ys zs h1' h2']

theorem charsLe_antisymm :
    ∀ xs ys, charsLe xs ys = true → charsLe ys xs = true → xs = ys := by
  intro xs
  induction xs with
  | nil =>
    intro ys h1 h2
    cases ys with
    | nil => rfl
    | cons b ys => simp [charsLe] at h2
  | cons a xs ih =>
    intro ys h1 h2
    cases ys with
    | nil => simp [charsLe] at h1
    | cons b ys =>
      simp only [charsLe] at h1 h2
      by_cases hab : a.toNat < b.toNat
      · have hba : ¬ b.toNat < a.toNat := by omega
        simp [hab, hba] at h2
      · by_cases hba : b.toNat < a.toNat
        · simp [hab, hba] at h1
        · have hn : a.toNat = b.toNat := by omega
          have hEq : a = b := Char.eq_of_val_eq (UInt32.ext hn)
          have h1' : charsLe xs ys = true := by simpa [hab, hba] using h1
          have h2' : charsLe ys xs = true := by simpa [hab, hba] using h2
          rw [hEq, ih ys h1' h2']

theorem strLe_antisymm (a b : String) (h1 : strLe a b = true) (h2 : strLe b a = true) :
    a = b := by
  cases a with
  | mk xs =>
    cases b with
    | mk ys =>
      have := charsLe_antisymm xs ys h1 h2
      simp_all

/-! ### The JSON data model

Variable values, execution-result data and extension payloads all live in
the JSON universe of the host language; this is the shallow embedding used
throughout. -/

inductive JValue where
  | null
  | bool (b : Bool)
  | num (n : Int)
  | str (s : String)
  | arr (xs : List JValue)
  | obj (fs : List (String × JValue))

/-- Ordering of object fields by key, used for canonicalization. -/
def fieldLe (p q : String × JValue) : Prop := strLe p.1 q.1 = true

instance : DecidableRel fieldLe := fun p q => inferInstanceAs (Decidable (_ = true))

instance : IsTotal (String × JValue) fieldLe :=
  ⟨fun p q => charsLe_total p.1.data q.1.data⟩

instance : IsTrans (String × JValue) fieldLe :=
  ⟨fun _ _ _ h1 h2 => charsLe_trans _ _ _ h1 h2⟩

mutual

/-- Recursively sort all object keys: the canonical form of a JSON value
used by the default cache-key builder before serializing. -/
def canon : JValue → JValue
  | .null => .null
  | .bool b => .bool b
  | .num n => .num n
  | .str s => .str s
  | .arr xs => .arr (canonElems xs)
  | .obj fs => .obj (List.insertionSort fieldLe (canonFields fs))
termination_by v => sizeOf v

def canonElems : List JValue → List JValue
  | [] => []
  | x :: xs => canon x :: canonElems xs
termination_by xs => sizeOf xs

def canonFields : List (String × JValue) → List (String × JValue)
  | [] => []
  | (k, v) :: fs => (k, canon v) :: canonFields fs
termination_by fs => sizeOf fs

end

mutual

/-- Well-formed JSON: every object has pairwise distinct keys (JavaScript
objects cannot carry duplicate keys). -/
def WF : JValue → Prop
  | .null => True
  | .bool _ => True
  | .num _ => True
  | .str _ => True
  | .arr xs => WFElems xs
  | .obj fs => (fs.map Prod.fst).Nodup ∧ WFFields fs
termination_by v => sizeOf v

def WFElems : List JValue → Prop
  | [] => True
  | x :: xs => WF x ∧ WFElems xs
termination_by xs => sizeOf xs

def WFFields : List (String × JValue) → Prop
  | [] => True
  | (_, v) :: fs => WF v ∧ WFFields fs
termination_by fs => sizeOf fs

end

def sepComma : List String → String
  | [] => ""
  | [x] => x
  | x :: y :: rest => x ++ "," ++ sepComma (y :: rest)

mutual

/-- JSON serialization (object braces written via their code points). -/
def serialize : JValue → String
  | .null => "null"
  | .bool b => if b then "true" else "false"
  | .num n => toString n
  | .str s => "\"" ++ s ++ "\""
  | .arr xs => "[" ++ sepComma (serializeElems xs) ++ "]"
  | .obj fs => "\x7b" ++ sepComma (serializeFields fs) ++ "\x7d"
termination_by v => sizeOf v

def serializeElems : List JValue → List String
  | [] => []
  | x :: xs => serialize x :: serializeElems xs
termination_by xs => sizeOf xs

def serializeFields : List (String × JValue) → List String
  | [] => []
  | (k, v) :: fs => ("\"" ++ k ++ "\":" ++ serialize v) :: serializeFields fs
termination_by fs => sizeOf fs

end

/-- Modelled from the spec: `defaultBuildResponseCacheKey` of the
response-cache package (its implementation is not part of the sources,
only its tests).  The key joins the document string, the canonical
serialization of the variable values (keys sorted recursively), and the
session id (empty for a null session). -/
def defaultBuildResponseCacheKey (documentString : String) (variableValues : JValue)
    (sessionId : Option String) : String :=
  (documentString ++ "|" ++ serialize (canon variableValues) ++ "|") ++ sessionId.getD ""

/-- Equality of JSON values up to permutation of object keys, at any
nesting depth. -/
inductive PermEq : JValue → JValue → Prop
  | null : PermEq .null .null
  | bool (b : Bool) : PermEq (.bool b) (.bool b)
  | num (n : Int) : PermEq (.num n) (.num n)
  | str (s : String) : PermEq (.str s) (.str s)
  | arrNil : PermEq (.arr []) (.arr [])
  | arrCons {x y : JValue} {xs ys : List JValue} :
      PermEq x y → PermEq (.arr xs) (.arr ys) → PermEq (.arr (x :: xs)) (.arr (y :: ys))
  | objNil : PermEq (.obj []) (.obj [])
  | objCons (k : String) {v w : JValue} {fs gs : List (String × JValue)} :
      PermEq v w → PermEq (.obj fs) (.obj gs) →
      PermEq (.obj ((k, v) :: fs)) (.obj ((k, w) :: gs))
  | objSwap (k1 k2 : String) (v1 v2 : JValue) (fs : List (String × JValue)) :
      PermEq (.obj ((k1, v1) :: (k2, v2) :: fs)) (.obj ((k2, v2) :: (k1, v1) :: fs))
  | objTrans {fs gs hs : List (String × JValue)} :
      PermEq (.obj fs) (.obj gs) → PermEq (.obj gs) (.obj hs) →
      PermEq (.obj fs) (.obj hs)

theorem canonFields_keys (fs : List (String × JValue)) :
    (canonFields fs).map Prod.fst = fs.map Prod.fst := by
  induction fs with
  | nil => simp [canonFields]
  | cons p fs ih =>
    obtain ⟨k, v⟩ := p
    simp [canonFields, ih]

/-- Strict version of the field order, used to show sorted lists agree. -/
def fieldLt (p q : String × JValue) : Prop := fieldLe p q ∧ p.1 ≠ q.1

instance : IsAntisymm (String × JValue) fieldLt :=
  ⟨fun p q h1 h2 => absurd (strLe_antisymm p.1 q.1 h1.1 h2.1) h1.2⟩

theorem sortFields_eq_of_perm (l1 l2 : List (String × JValue)) (h : l1.Perm l2)
    (hnd : (l1.map Prod.fst).Nodup) :
    List.insertionSort fieldLe l1 = List.insertionSort fieldLe l2 := by
  have hs1 := List.sorted_insertionSort fieldLe l1
  have hs2 := List.sorted_insertionSort fieldLe l2
  have hp1 : (List.insertionSort fieldLe l1).Perm l1 := List.perm_insertionSort _ _
  have hp2 : (List.insertionSort fieldLe l2).Perm l2 := List.perm_insertionSort _ _
  have hperm : (List.insertionSort fieldLe l1).Perm (List.insertionSort fieldLe l2) :=
    hp1.trans (h.trans hp2.symm)
  have hnd1 : ((List.insertionSort fieldLe l1).map Prod.fst).Nodup :=
    ((hp1.map Prod.fst).nodup_iff).mpr hnd
  have hnd2 : ((List.insertionSort fieldLe l2).map Prod.fst).Nodup :=
    ((hperm.map Prod.fst).nodup_iff).mp hnd1
  have key : ∀ (l : List (String × JValue)), List.Sorted fieldLe l →
      (l.map Prod.fst).Nodup → List.Sorted fieldLt l := by
    intro l hs hn
    rw [List.Nodup, List.pairwise_map] at hn
    exact (hs.and hn).imp (fun hab => ⟨hab.1, hab.2⟩)
  exact List.eq_of_perm_of_sorted hperm (key _ hs1 hnd1) (key _ hs2 hnd2)

theorem permEq_obj_keys {v w : JValue} (h : PermEq v w) :
    ∀ {fs gs : List (String × JValue)}, v = .obj fs → w = .obj gs →
      (fs.map Prod.fst).Perm (gs.map Prod.fst) := by
  induction h with
  | null => intro fs gs h1 h2; cases h1
  | bool b => intro fs gs h1 h2; cases h1
  | num n => intro fs gs h1 h2; cases h1
  | str s => intro fs gs h1 h2; cases h1
  | arrNil => intro fs gs h1 h2; cases h1
  | arrCons hxy hrest ihx ihrest => intro fs gs h1 h2; cases h1
  | objNil =>
    intro fs gs h1 h2
    cases h1; cases h2
    exact List.Perm.refl _
  | objCons k hv hrest ihv ihrest =>
    intro fs gs h1 h2
    cases h1; cases h2
    simp only [List.map_cons]
    exact (ihrest rfl rfl).cons k
  | objSwap k1 k2 v1 v2 fs0 =>
    intro fs gs h1 h2
    cases h1; cases h2
    simp only [List.map_cons]
    exact List.Perm.swap k2 k1 _
  | objTrans hx hy ih1 ih2 =>
    intro fs gs h1 h2
    cases h1; cases h2
    exact (ih1 rfl rfl).trans (ih2 rfl rfl)

theorem permEq_wf {v w : JValue} (h : PermEq v w) (hwf : WF v) : WF w := by
  induction h with
  | null => exact hwf
  | bool b => exact hwf
  | num n => exact hwf
  | str s => exact hwf
  | arrNil => exact hwf
  | arrCons hxy hrest ihx ihrest =>
    simp only [WF, WFElems] at hwf ⊢
    have h1 : WF (.arr _) := ihrest (by simp only [WF]; exact hwf.2)
    refine ⟨ihx hwf.1, ?_⟩
    simpa only [WF] using h1
  | objNil => exact hwf
  | objCons k hv hrest ihv ihrest =>
    simp only [WF, WFFields, List.map_cons, List.nodup_cons] at hwf ⊢
    have hkeys := permEq_obj_keys hrest rfl rfl
    have hobj : WF (JValue.obj _) := ihrest (by simp only [WF]; exact ⟨hwf.1.2, hwf.2.2⟩)
    simp only [WF] at hobj
    refine ⟨⟨fun hmem => hwf.1.1 (hkeys.symm.subset hmem), hobj.1⟩, ihv hwf.2.1, hobj.2⟩
  | objSwap k1 k2 v1 v2 fs0 =>
    simp only [WF, WFFields, List.map_cons] at hwf ⊢
    refine ⟨(List.Perm.swap k2 k1 _).nodup hwf.1, hwf.2.2.1, hwf.2.1, hwf.2.2.2⟩
  | objTrans hx hy ih1 ih2 => exact ih2 (ih1 hwf)

theorem canon_permEq {v w : JValue} (h : PermEq v w) (hwf : WF v) : canon v = canon w := by
  induction h with
  | null => rfl
  | bool b => rfl
  | num n => rfl
  | str s => rfl
  | arrNil => rfl
  | objNil => rfl
  | arrCons hxy hrest ihx ihrest =>
    simp only [WF, WFElems] at hwf
    have h1 := ihx hwf.1
    have h2 := ihrest (by simp only [WF]; exact hwf.2)
    simp only [canon, canonElems, JValue.arr.injEq] at h2 ⊢
    simp [List.cons.injEq, h1, h2]
  | objCons k hv hrest ihv ihrest =>
    rename_i v w fs gs
    simp only [WF, WFFields, List.map_cons, List.nodup_cons] at hwf
    have hv' := ihv hwf.2.1
    have hrest' := ihrest (by simp only [WF]; exact ⟨hwf.1.2, hwf.2.2⟩)
    simp only [canon, canonFields, JValue.obj.injEq] at hrest' ⊢
    rw [← hv']
    have hcf : (canonFields fs).Perm (canonFields gs) := by
      have p1 := (List.perm_insertionSort fieldLe (canonFields fs)).symm
      rw [hrest'] at p1
      exact p1.trans (List.perm_insertionSort fieldLe (canonFields gs))
    apply sortFields_eq_of_perm
    · exact hcf.cons (k, canon v)
    · simp only [List.map_cons, canonFields_keys]
      exact List.nodup_cons.mpr hwf.1
  | objSwap k1 k2 v1 v2 fs0 =>
    simp only [WF, WFFields, List.map_cons] at hwf
    simp only [canon, canonFields, JValue.obj.injEq]
    apply sortFields_eq_of_perm
    · exact List.Perm.swap _ _ _
    · simp only [List.map_cons, canonFields_keys]
      exact hwf.1
  | objTrans hx hy ih1 ih2 => exact (ih1 hwf).trans (ih2 (permEq_wf hx hwf))

theorem strAppend_cancel (p a b : String) (h : p ++ a = p ++ b) : a = b := by
  cases p with
  | mk xs =>
    cases a with
    | mk ys =>
      cases b with
      | mk zs =>
        have hd := congrArg String.data h
        simp only [String.data_append] at hd
        have := List.append_cancel_left hd
        simp_all

/-- Claim C1: for every document string, variable mapping and session id,
the default cache-key builder returns the same key when the variable
mapping's keys are permuted at any nesting depth, and for the same
document and variables it returns distinct keys for two distinct session
ids, so two sessions never collide on the same key. -/
theorem claim_buildCacheKey_canonical_and_session_distinct :
    (∀ (doc : String) (v w : JValue) (s : Option String), WF v → PermEq v w →
      defaultBuildResponseCacheKey doc v s = defaultBuildResponseCacheKey doc w s) ∧
    (∀ (doc : String) (v : JValue) (s1 s2 : String), s1 ≠ s2 →
      defaultBuildResponseCacheKey doc v (some s1) ≠ defaultBuildResponseCacheKey doc v (some s2)) := by
  constructor
  · intro doc v w s hwf hp
    unfold defaultBuildResponseCacheKey
    rw [canon_permEq hp hwf]
  · intro doc v s1 s2 hne heq
    unfold defaultBuildResponseCacheKey at heq
    exact hne (strAppend_cancel _ _ _ heq)

theorem claim_buildCacheKey_canonical_and_session_distinct_witness :
    defaultBuildResponseCacheKey "query test" (.obj [("a", .num 1), ("b", .num 2)]) (some "s")
      = defaultBuildResponseCacheKey "query test" (.obj [("b", .num 2), ("a", .num 1)]) (some "s") ∧
    defaultBuildResponseCacheKey "query test" (.obj [("a", .num 1), ("b", .num 2)]) (some "s1")
      ≠ defaultBuildResponseCacheKey "query test" (.obj [("a", .num 1), ("b", .num 2)]) (some "s2") := by
  constructor
  · exact claim_buildCacheKey_canonical_and_session_distinct.1
      "query test" (.obj [("a", .num 1), ("b", .num 2)]) (.obj [("b", .num 2), ("a", .num 1)])
      (some "s")
      (by simp +decide [WF, WFFields])
      (PermEq.objSwap "a" "b" (.num 1) (.num 2) [])
  · exact claim_buildCacheKey_canonical_and_session_distinct.2
      "query test" (.obj [("a", .num 1), ("b", .num 2)]) "s1" "s2" (by decide)

/-! ### The hook-composition engine (execute phase)

Modelled from the spec: the PluginComposer / PhaseRunner of the core
package is not part of the sources (only its documentation and the
response-cache tests that exercise it are), so the composition algorithm
of section 4.1 is embedded here.  A plugin is abstracted by whether it
declares an `onExecute` before-hook, whether that hook invokes
`stopPropagation`, and whether it registers an `onExecuteDone`
after-hook. -/

structure Plugin where
  hasOnExecute : Bool
  stops : Bool
  registersDone : Bool

inductive PhaseEvent where
  | before (i : Nat)
  | impl
  | after (i : Nat)
deriving DecidableEq

/-- Iterate the before-hooks in list order starting at index `i0`:
returns the indices whose `onExecute` ran and the indices whose
`onExecuteDone` was collected.  Iteration stops right after the first
plugin whose hook invokes `stopPropagation`; its own after-hook (if
registered) is still collected. -/
def collectBefore : Nat → List Plugin → List Nat × List Nat
  | _, [] => ([], [])
  | i, p :: ps =>
    if p.hasOnExecute then
      let regs := if p.registersDone then [i] else []
      if p.stops then ([i], regs)
      else
        let rest := collectBefore (i + 1) ps
        (i :: rest.1, regs ++ rest.2)
    else collectBefore (i + 1) ps

/-- The execute phase as composed by the engine: all reachable
before-hooks in order, then the underlying implementation, then the
collected after-hooks in the same forward order. -/
def runExecutePhase (ps : List Plugin) : List PhaseEvent :=
  let c := collectBefore 0 ps
  c.1.map .before ++ [.impl] ++ c.2.map .after

theorem collectBefore_halt (ps : List Plugin) :
    ∀ (k i : Nat) (hi : i < ps.length),
      (ps.get ⟨i, hi⟩).hasOnExecute = true → (ps.get ⟨i, hi⟩).stops = true →
      (∀ (j : Nat) (hj : j < ps.length), j < i →
        ¬((ps.get ⟨j, hj⟩).hasOnExecute = true ∧ (ps.get ⟨j, hj⟩).stops = true)) →
      (∀ j, i < j → (k + j) ∉ (collectBefore k ps).1 ∧ (k + j) ∉ (collectBefore k ps).2) ∧
      (∀ (j : Nat) (hj : j < ps.length), j < i →
        (ps.get ⟨j, hj⟩).hasOnExecute = true → (ps.get ⟨j, hj⟩).registersDone = true →
        (k + j) ∈ (collectBefore k ps).2) := by
  induction ps with
  | nil =>
    intro k i hi
    simp at hi
  | cons p ps ih =>
    intro k i hi hact hstop hfirst
    by_cases hpact : p.hasOnExecute = true
    · by_cases hpstop : p.stops = true
      · -- the head plugin halts, so i must be 0
        have hi0 : i = 0 := by
          by_contra hne
          exact hfirst 0 (Nat.succ_pos _) (by omega) ⟨hpact, hpstop⟩
        subst hi0
        have hc : collectBefore k (p :: ps)
            = ([k], if p.registersDone then [k] else []) := by
          simp [collectBefore, hpact, hpstop]
        constructor
        · intro j hj
          rw [hc]
          constructor
          · intro hmem
            have := List.mem_singleton.mp hmem
            omega
          · intro hmem
            by_cases hreg : p.registersDone = true
            · simp [hreg] at hmem; omega
            · simp [hreg] at hmem
        · intro j hj hji; omega
      · -- the head plugin runs but does not halt
        have hipos : 0 < i := by
          rcases Nat.eq_zero_or_pos i with h0 | h0
          · subst h0
            exact absurd (show p.stops = true from hstop) hpstop
          · exact h0
        obtain ⟨i', rfl⟩ : ∃ i', i = i' + 1 := ⟨i - 1, by omega⟩
        have hi' : i' < ps.length := by simp at hi; omega
        have ihres := ih (k + 1) i' hi' hact hstop
          (fun j hj hji => hfirst (j + 1) (by simp; omega) (by omega))
        have hc : collectBefore k (p :: ps)
            = (k :: (collectBefore (k + 1) ps).1,
               (if p.registersDone then [k] else []) ++ (collectBefore (k + 1) ps).2) := by
          simp [collectBefore, hpact, hpstop]
        constructor
        · intro j hj
          obtain ⟨j', rfl⟩ : ∃ j', j = j' + 1 := ⟨j - 1, by omega⟩
          have hIH := ihres.1 j' (by omega)
          have heq : k + (j' + 1) = (k + 1) + j' := by omega
          rw [hc]
          constructor
          · intro hmem
            rcases List.mem_cons.mp hmem with h | h
            · omega
            · rw [heq] at h
              exact hIH.1 h
          · intro hmem
            rcases List.mem_append.mp hmem with h | h
            · by_cases hreg : p.registersDone = true
              · simp [hreg] at h
              · simp [hreg] at h
            · rw [heq] at h
              exact hIH.2 h
        · intro j hj hji hjact hjreg
          rw [hc]
          cases j with
          | zero =>
            have hreg : p.registersDone = true := hjreg
            simp [hreg]
          | succ j' =>
            have hj' : j' < ps.length := by simp at hj; omega
            have hmem := ihres.2 j' hj' (by omega) hjact hjreg
            have heq : k + (j' + 1) = (k + 1) + j' := by omega
            rw [heq]
            exact List.mem_append.mpr (Or.inr hmem)
    · -- the head plugin declares no onExecute hook at all
      have hipos : 0 < i := by
        rcases Nat.eq_zero_or_pos i with h0 | h0
        · subst h0
          exact absurd (show p.hasOnExecute = true from hact) hpact
        · exact h0
      obtain ⟨i', rfl⟩ : ∃ i', i = i' + 1 := ⟨i - 1, by omega⟩
      have hi' : i' < ps.length := by simp at hi; omega
      have ihres := ih (k + 1) i' hi' hact hstop
        (fun j hj hji => hfirst (j + 1) (by simp; omega) (by omega))
      have hc : collectBefore k (p :: ps) = collectBefore (k + 1) ps := by
        simp [collectBefore, hpact]
      constructor
      · intro j hj
        obtain ⟨j', rfl⟩ : ∃ j', j = j' + 1 := ⟨j - 1, by omega⟩
        have heq : k + (j' + 1) = (k + 1) + j' := by omega
        rw [hc, heq]
        exact ihres.1 j' (by omega)
      · intro j hj hji hjact hjreg
        rw [hc]
        cases j with
        | zero =>
          exact absurd (show p.hasOnExecute = true from hjact) hpact
        | succ j' =>
          have hj' : j' < ps.length := by simp at hj; omega
          have heq : k + (j' + 1) = (k + 1) + j' := by omega
          rw [heq]
          exact ihres.2 j' hj' (by omega) hjact hjreg

/-- Claim C2: if the plugin at index i invokes stopPropagation during its
onExecute before-hook, then no plugin at a larger index has its onExecute
or onExecuteDone hook invoked for that request, while every plugin at a
smaller index that registered an onExecuteDone hook still has it
invoked. -/
theorem claim_stopPropagation_halts_later_plugins (ps : List Plugin) (i : Nat)
    (hi : i < ps.length)
    (hact : (ps.get ⟨i, hi⟩).hasOnExecute = true)
    (hstop : (ps.get ⟨i, hi⟩).stops = true)
    (hfirst : ∀ (j : Nat) (hj : j < ps.length), j < i →
      ¬((ps.get ⟨j, hj⟩).hasOnExecute = true ∧ (ps.get ⟨j, hj⟩).stops = true)) :
    (∀ j, i < j →
      PhaseEvent.before j ∉ runExecutePhase ps ∧ PhaseEvent.after j ∉ runExecutePhase ps) ∧
    (∀ (j : Nat) (hj : j < ps.length), j < i →
      (ps.get ⟨j, hj⟩).hasOnExecute = true → (ps.get ⟨j, hj⟩).registersDone = true →
      PhaseEvent.after j ∈ runExecutePhase ps) := by
  have h := collectBefore_halt ps 0 i hi hact hstop hfirst
  constructor
  · intro j hj
    have h1 := (h.1 j hj).1
    have h2 := (h.1 j hj).2
    simp only [Nat.zero_add] at h1 h2
    unfold runExecutePhase
    constructor
    · intro hmem
      simp only [List.mem_append, List.mem_map, List.mem_singleton] at hmem
      rcases hmem with (⟨x, hx, hbx⟩ | hmem) | ⟨x, hx, hbx⟩
      · cases hbx; exact h1 hx
      · cases hmem
      · cases hbx
    · intro hmem
      simp only [List.mem_append, List.mem_map, List.mem_singleton] at hmem
      rcases hmem with (⟨x, hx, hbx⟩ | hmem) | ⟨x, hx, hbx⟩
      · cases hbx
      · cases hmem
      · cases hbx; exact h2 hx
  · intro j hj hji hjact hjreg
    have hmem := h.2 j hj hji hjact hjreg
    simp only [Nat.zero_add] at hmem
    unfold runExecutePhase
    simp only [List.mem_append, List.mem_map]
    right
    exact ⟨j, hmem, rfl⟩

theorem claim_stopPropagation_halts_later_plugins_witness :
    PhaseEvent.before 2 ∉ runExecutePhase
      [⟨true, false, true⟩, ⟨true, true, true⟩, ⟨true, false, true⟩] ∧
    PhaseEvent.after 2 ∉ runExecutePhase
      [⟨true, false, true⟩, ⟨true, true, true⟩, ⟨true, false, true⟩] ∧
    PhaseEvent.after 0 ∈ runExecutePhase
      [⟨true, false, true⟩, ⟨true, true, true⟩, ⟨true, false, true⟩] := by
  have h := claim_stopPropagation_halts_later_plugins
    [⟨true, false, true⟩, ⟨true, true, true⟩, ⟨true, false, true⟩] 1
    (by decide) rfl rfl
    (by
      intro j hj hji hcontra
      have hj0 : j = 0 := by omega
      subst hj0
      exact Bool.noConfusion hcontra.2)
  exact ⟨(h.1 2 (by omega)).1, (h.1 2 (by omega)).2,
    h.2 0 (by decide) (by omega) rfl rfl⟩

/-! ### The response-cache engine

Modelled from the spec: the `useResponseCache` plugin implementation is
not part of the sources (only its test-suite is), so the cache engine of
section 4.4 of the spec is embedded here: entity collection from result
data, tiered TTL resolution, the store with expiry, the query path
(hit/miss), the mutation invalidation path, and the imperative
`invalidate` API. -/

/-- A collected entity reference: ids are kept as strings. -/
structure EntityRef where
  typename : String
  id : String
deriving DecidableEq

/-- Normalization of an identity-field value to a string (ids may be
delivered as numbers or strings by resolvers). -/
def normId : JValue → Option String
  | .num n => some (toString n)
  | .str s => some s
  | _ => none

def lookupField (fs : List (String × JValue)) (k : String) : Option JValue :=
  match fs with
  | [] => none
  | (k2, v) :: rest => if k2 = k then some v else lookupField rest k

mutual

/-- Walk a result's data and collect an entity reference for every object
exposing both the identity field `id` and a string `__typename`. -/
def collectEntities : JValue → List EntityRef
  | .null => []
  | .bool _ => []
  | .num _ => []
  | .str _ => []
  | .arr xs => collectEntitiesElems xs
  | .obj fs =>
    (match lookupField fs "__typename", (lookupField fs "id").bind normId with
     | some (.str t), some i => [⟨t, i⟩]
     | _, _ => []) ++ collectEntitiesFields fs
termination_by v => sizeOf v

def collectEntitiesElems : List JValue → List EntityRef
  | [] => []
  | x :: xs => collectEntities x ++ collectEntitiesElems xs
termination_by xs => sizeOf xs

def collectEntitiesFields : List (String × JValue) → List EntityRef
  | [] => []
  | (_, v) :: fs => collectEntities v ++ collectEntitiesFields fs
termination_by fs => sizeOf fs

end

mutual

/-- All object type names surfaced in a result's data. -/
def collectTypenames : JValue → List String
  | .null => []
  | .bool _ => []
  | .num _ => []
  | .str _ => []
  | .arr xs => collectTypenamesElems xs
  | .obj fs =>
    (match lookupField fs "__typename" with
     | some (.str t) => [t]
     | _ => []) ++ collectTypenamesFields fs
termination_by v => sizeOf v

def collectTypenamesElems : List JValue → List String
  | [] => []
  | x :: xs => collectTypenames x ++ collectTypenamesElems xs
termination_by xs => sizeOf xs

def collectTypenamesFields : List (String × JValue) → List String
  | [] => []
  | (_, v) :: fs => collectTypenames v ++ collectTypenamesFields fs
termination_by fs => sizeOf fs

end

/-- Argument of the invalidation APIs: a typename with an optional id
(which may be passed as a number or as a string). -/
structure InvalidationRef where
  typename : String
  id : Option JValue

def matchesRef (r : InvalidationRef) (e : EntityRef) : Bool :=
  r.typename == e.typename &&
    match r.id with
    | none => true
    | some j => normId j == some e.id

/-- An execution result: data, a flag for top-level errors, and the
extensions payload. -/
structure ExecResult where
  data : JValue
  hasErrors : Bool
  extensions : List (String × JValue)

structure CacheEntry where
  value : ExecResult
  expiresAt : Option Nat
  entities : List EntityRef

/-- The store: cache keys paired with their entries. -/
abbrev Store : Type := List (String × CacheEntry)

/-- Delete every entry referencing any of the given entity references; an
id-less reference matches every entity of its typename.  This is both the
mutation invalidation path and the imperative `cache.invalidate` API. -/
def invalidate (refs : List InvalidationRef) (st : Store) : Store :=
  List.filter (fun p => !(p.2.entities.any (fun e => refs.any (fun r => matchesRef r e)))) st

def lookupStore (st : Store) (k : String) : Option CacheEntry :=
  match st with
  | [] => none
  | (k2, e) :: rest => if k2 = k then some e else lookupStore rest k

def entryFresh (e : CacheEntry) (now : Nat) : Bool :=
  match e.expiresAt with
  | none => true
  | some t => now < t

def lookupFresh (st : Store) (now : Nat) (k : String) : Option CacheEntry :=
  match lookupStore st k with
  | some e => if entryFresh e now then some e else none
  | none => none

def setStore (st : Store) (k : String) (e : CacheEntry) : Store :=
  (k, e) :: List.filter (fun p => !(p.1 == k)) st

structure CacheConfig where
  ttl : Option Nat
  ttlPerType : List (String × Nat)
  ttlPerSchemaCoordinate : List (String × Nat)
  shouldCacheResult : Option (String → ExecResult → Bool)

def listMin : List Nat → Option Nat
  | [] => none
  | x :: xs => some (xs.foldl Nat.min x)

/-- Tiered TTL resolution, most specific tier wins: matching schema
coordinates first, then matching type names, then the global TTL
(`none` meaning cache forever). -/
def resolveTtl (cfg : CacheConfig) (coords : List String) (typenames : List String) : Option Nat :=
  match listMin ((cfg.ttlPerSchemaCoordinate.filter (fun p => coords.contains p.1)).map Prod.snd) with
  | some t => some t
  | none =>
    match listMin ((cfg.ttlPerType.filter (fun p => typenames.contains p.1)).map Prod.snd) with
    | some t => some t
    | none => cfg.ttl

/-- The cacheability predicate: the `shouldCacheResult` hook when
configured, otherwise absence of top-level errors. -/
def cacheableResult (cfg : CacheConfig) (key : String) (res : ExecResult) : Bool :=
  match cfg.shouldCacheResult with
  | some f => f key res
  | none => !res.hasErrors

/-- One operation as seen by the engine: its (already derived) cache key,
whether it is a mutation, the schema coordinates it traverses, and the
result its resolvers produce when actually executed. -/
structure Operation where
  key : String
  isMutation : Bool
  coordinates : List String
  result : ExecResult

inductive CacheMetadata where
  | hit
  | miss (didCache : Bool) (ttl : Option Nat)
  | invalidation (entities : List EntityRef)

structure EngineState where
  store : Store
  resolverCalls : Nat
  now : Nat

/-- Execute one operation through the cache engine: mutations execute and
invalidate every entry referencing an entity of their result; queries are
served from a fresh store entry when possible, and otherwise execute and
store the result when it is cacheable and the resolved TTL is not 0. -/
def execRequest (cfg : CacheConfig) (op : Operation) (st : EngineState) :
    EngineState × ExecResult × CacheMetadata :=
  if op.isMutation then
    let ents := collectEntities op.result.data
    let refs := ents.map (fun e => InvalidationRef.mk e.typename (some (.str e.id)))
    (⟨invalidate refs st.store, st.resolverCalls + 1, st.now⟩, op.result, .invalidation ents)
  else
    match lookupFresh st.store st.now op.key with
    | some entry => (st, entry.value, .hit)
    | none =>
      let ttl := resolveTtl cfg op.coordinates (collectTypenames op.result.data)
      if cacheableResult cfg op.key op.result && (ttl != some 0) then
        (⟨setStore st.store op.key ⟨op.result, ttl.map (st.now + ·), collectEntities op.result.data⟩,
          st.resolverCalls + 1, st.now⟩, op.result, .miss true ttl)
      else
        (⟨st.store, st.resolverCalls + 1, st.now⟩, op.result, .miss false ttl)

/-- Advance the clock; per-entry expiry timers self-remove entries whose
TTL has elapsed. -/
def tick (ms : Nat) (st : EngineState) : EngineState :=
  ⟨List.filter (fun p => entryFresh p.2 (st.now + ms)) st.store, st.resolverCalls, st.now + ms⟩

theorem matchesRef_str_iff (t i : String) (e : EntityRef) :
    matchesRef ⟨t, some (.str i)⟩ e = true ↔ e = ⟨t, i⟩ := by
  cases e with
  | mk et ei =>
    simp only [matchesRef, normId, Bool.and_eq_true, beq_iff_eq, EntityRef.mk.injEq,
      Option.some.injEq]
    constructor
    · rintro ⟨h1, h2⟩; exact ⟨h1.symm, h2.symm⟩
    · rintro ⟨h1, h2⟩; exact ⟨h1.symm, h2.symm⟩

theorem lookupStore_eq_none_of_not_mem (st : Store) (k : String)
    (h : k ∉ st.map Prod.fst) : lookupStore st k = none := by
  induction st with
  | nil => rfl
  | cons q st ih =>
    obtain ⟨k2, e2⟩ := q
    simp only [List.map_cons, List.mem_cons] at h
    push_neg at h
    simp [lookupStore, Ne.symm h.1, ih h.2]

theorem lookupStore_filter_none_of_not_mem (st : Store) (k : String)
    (p : String × CacheEntry → Bool)
    (h : k ∉ st.map Prod.fst) : lookupStore (st.filter p) k = none := by
  induction st with
  | nil => rfl
  | cons q st ih =>
    obtain ⟨k2, e2⟩ := q
    simp only [List.map_cons, List.mem_cons] at h
    push_neg at h
    rw [List.filter_cons]
    by_cases hq : p (k2, e2) = true
    · simp [hq, lookupStore, Ne.symm h.1, ih h.2]
    · simp only [hq, if_false, Bool.false_eq_true]
      exact ih h.2

theorem lookupStore_filter_eq_none (st : Store) (k : String) (e : CacheEntry)
    (p : String × CacheEntry → Bool) (hnd : (st.map Prod.fst).Nodup)
    (hl : lookupStore st k = some e) (hp : p (k, e) = false) :
    lookupStore (st.filter p) k = none := by
  induction st with
  | nil => simp [lookupStore] at hl
  | cons q st ih =>
    obtain ⟨k2, e2⟩ := q
    simp only [List.map_cons, List.nodup_cons] at hnd
    by_cases hk : k2 = k
    · subst hk
      have he : e2 = e := by simpa [lookupStore] using hl
      subst he
      rw [List.filter_cons]
      simp only [hp, if_false, Bool.false_eq_true]
      exact lookupStore_filter_none_of_not_mem st k2 p hnd.1
    · have hl' : lookupStore st k = some e := by simpa [lookupStore, hk] using hl
      rw [List.filter_cons]
      by_cases hq : p (k2, e2) = true
      · simp only [hq, if_true]
        simp [lookupStore, hk]
        exact ih hnd.2 hl'
      · simp only [hq, if_false, Bool.false_eq_true]
        exact ih hnd.2 hl'

/-- Claim C3: after a mutation whose result contains exactly the entity
reference (User, 1) completes, every previously stored cache entry whose
entity set contains that reference is deleted, no entry whose entity set
does not contain it is deleted (and nothing new appears), and a
subsequent identical query misses the cache and invokes the resolver
again. -/
theorem claim_mutation_invalidates_exactly_referencing_entries
    (cfg : CacheConfig) (op : Operation) (st : EngineState)
    (hm : op.isMutation = true)
    (hents : collectEntities op.result.data = [⟨"User", "1"⟩]) :
    (∀ (k : String) (e : CacheEntry), (k, e) ∈ st.store →
        (⟨"User", "1"⟩ : EntityRef) ∈ e.entities → (k, e) ∉ (execRequest cfg op st).1.store) ∧
    (∀ (k : String) (e : CacheEntry), (k, e) ∈ st.store →
        (⟨"User", "1"⟩ : EntityRef) ∉ e.entities → (k, e) ∈ (execRequest cfg op st).1.store) ∧
    (∀ (k : String) (e : CacheEntry), (k, e) ∈ (execRequest cfg op st).1.store →
        (k, e) ∈ st.store) ∧
    (∀ (qop : Operation) (e : CacheEntry), qop.isMutation = false →
        (st.store.map Prod.fst).Nodup →
        lookupStore st.store qop.key = some e →
        (⟨"User", "1"⟩ : EntityRef) ∈ e.entities →
        (execRequest cfg qop (execRequest cfg op st).1).1.resolverCalls
          = st.resolverCalls + 2) := by
  have hstore : (execRequest cfg op st).1.store
      = invalidate [⟨"User", some (.str "1")⟩] st.store := by
    simp [execRequest, hm, hents]
  have hpred : ∀ e : CacheEntry,
      (e.entities.any (fun ent =>
        List.any [(⟨"User", some (.str "1")⟩ : InvalidationRef)] (fun r => matchesRef r ent)))
        = true ↔ (⟨"User", "1"⟩ : EntityRef) ∈ e.entities := by
    intro e
    simp [List.any_eq_true, matchesRef_str_iff]
  refine ⟨?_, ?_, ?_, ?_⟩
  · intro k e hmem hent hmem'
    rw [hstore] at hmem'
    unfold invalidate at hmem'
    rw [List.mem_filter] at hmem'
    have hFalse : (e.entities.any (fun ent =>
        List.any [(⟨"User", some (.str "1")⟩ : InvalidationRef)] (fun r => matchesRef r ent)))
        = false := by
      have h2 := hmem'.2
      simp only [Bool.not_eq_true'] at h2
      exact h2
    have hTrue := (hpred e).mpr hent
    rw [hFalse] at hTrue
    exact Bool.noConfusion hTrue
  · intro k e hmem hent
    rw [hstore]
    unfold invalidate
    rw [List.mem_filter]
    refine ⟨hmem, ?_⟩
    simp only [Bool.not_eq_true']
    rw [← Bool.not_eq_true]
    rw [hpred e]
    exact hent
  · intro k e hmem
    rw [hstore] at hmem
    unfold invalidate at hmem
    exact (List.mem_filter.mp hmem).1
  · intro qop e hq hnd hl hent
    have hp : (fun p : String × CacheEntry => !(p.2.entities.any (fun ent =>
        List.any [(⟨"User", some (.str "1")⟩ : InvalidationRef)] (fun r => matchesRef r ent))))
          (qop.key, e) = false := by
      simp only [Bool.not_eq_false']
      exact (hpred e).mpr hent
    have hnone : lookupStore (execRequest cfg op st).1.store qop.key = none := by
      rw [hstore]
      unfold invalidate
      exact lookupStore_filter_eq_none st.store qop.key e _ hnd hl hp
    have hcalls : (execRequest cfg op st).1.resolverCalls = st.resolverCalls + 1 := by
      simp [execRequest, hm]
    set st2 := (execRequest cfg op st).1 with hst2
    have hfresh : lookupFresh st2.store st2.now qop.key = none := by
      simp [lookupFresh, hnone]
    have hstep : (execRequest cfg qop st2).1.resolverCalls = st2.resolverCalls + 1 := by
      simp only [execRequest, hq, Bool.false_eq_true, if_false, hfresh]
      by_cases hcond : (cacheableResult cfg qop.key qop.result
          && (resolveTtl cfg qop.coordinates (collectTypenames qop.result.data) != some 0)) = true
      · simp [hcond]
      · simp [hcond]
    rw [hstep, hcalls]

/-- A configuration with all defaults: cache forever, no per-type or
per-coordinate TTLs, default cacheability. -/
def cfgDefault : CacheConfig := ⟨none, [], [], none⟩

def sampleEntry1 : CacheEntry := ⟨⟨.null, false, []⟩, none, [⟨"User", "1"⟩]⟩

def sampleEntry2 : CacheEntry := ⟨⟨.null, false, []⟩, none, [⟨"Order", "7"⟩]⟩

def sampleMutation : Operation :=
  ⟨"m", true, [],
    ⟨.obj [("updateUser", .obj [("__typename", .str "User"), ("id", .str "1")])], false, []⟩⟩

def sampleState : EngineState := ⟨[("q1", sampleEntry1), ("q2", sampleEntry2)], 0, 0⟩

def sampleQuery1 : Operation := ⟨"q1", false, [], ⟨.null, false, []⟩⟩

theorem claim_mutation_invalidates_exactly_referencing_entries_witness :
    ("q1", sampleEntry1) ∉ (execRequest cfgDefault sampleMutation sampleState).1.store ∧
    ("q2", sampleEntry2) ∈ (execRequest cfgDefault sampleMutation sampleState).1.store ∧
    (execRequest cfgDefault sampleQuery1
      (execRequest cfgDefault sampleMutation sampleState).1).1.resolverCalls = 0 + 2 := by
  have h := claim_mutation_invalidates_exactly_referencing_entries
    cfgDefault sampleMutation sampleState rfl
    (by simp [sampleMutation, collectEntities, collectEntitiesFields, collectEntitiesElems,
      lookupField, normId])
  exact ⟨h.1 "q1" sampleEntry1 (by simp [sampleState]) (by simp [sampleEntry1]),
    h.2.1 "q2" sampleEntry2 (by simp [sampleState]) (by decide),
    h.2.2.2 sampleQuery1 sampleEntry1 rfl (by decide) rfl (by simp [sampleEntry1])⟩

theorem listMin_isSome_of_ne_nil (l : List Nat) (h : l ≠ []) : ∃ t, listMin l = some t := by
  cases l with
  | nil => exact absurd rfl h
  | cons x xs => exact ⟨xs.foldl Nat.min x, rfl⟩

/-- Claim C4: a matching ttlPerSchemaCoordinate entry takes priority over
any matching ttlPerType entry, which takes priority over the global ttl
(the resolved TTL is independent of the lower tiers whenever a higher
tier matches); and an operation whose resolved TTL is a positive t is
cached with expiry now + t, in particular with global ttl 0 and
ttlPerType assigning 200 to a returned type. -/
theorem claim_ttl_tier_priority :
    (∀ (cfg cfg2 : CacheConfig) (coords tns : List String),
      cfg.ttlPerSchemaCoordinate = cfg2.ttlPerSchemaCoordinate →
      (∃ p ∈ cfg.ttlPerSchemaCoordinate, coords.contains p.1 = true) →
      resolveTtl cfg coords tns = resolveTtl cfg2 coords tns) ∧
    (∀ (cfg cfg2 : CacheConfig) (coords tns : List String),
      (∀ p ∈ cfg.ttlPerSchemaCoordinate, coords.contains p.1 = false) →
      (∀ p ∈ cfg2.ttlPerSchemaCoordinate, coords.contains p.1 = false) →
      cfg.ttlPerType = cfg2.ttlPerType →
      (∃ p ∈ cfg.ttlPerType, tns.contains p.1 = true) →
      resolveTtl cfg coords tns = resolveTtl cfg2 coords tns) ∧
    (∀ (cfg : CacheConfig) (coords tns : List String),
      (∀ p ∈ cfg.ttlPerSchemaCoordinate, coords.contains p.1 = false) →
      (∀ p ∈ cfg.ttlPerType, tns.contains p.1 = false) →
      resolveTtl cfg coords tns = cfg.ttl) ∧
    (∀ (cfg : CacheConfig) (op : Operation) (st : EngineState) (t : Nat),
      op.isMutation = false →
      lookupFresh st.store st.now op.key = none →
      cacheableResult cfg op.key op.result = true →
      resolveTtl cfg op.coordinates (collectTypenames op.result.data) = some t →
      0 < t →
      (execRequest cfg op st).2.2 = .miss true (some t) ∧
      lookupStore (execRequest cfg op st).1.store op.key
        = some ⟨op.result, some (st.now + t), collectEntities op.result.data⟩) := by
  have hfilterNil : ∀ (l : List (String × Nat)) (coords : List String),
      (∀ p ∈ l, coords.contains p.1 = false) →
      l.filter (fun p => coords.contains p.1) = [] := by
    intro l coords h
    rw [List.filter_eq_nil_iff]
    intro a ha
    intro hmem
    rw [h a ha] at hmem
    exact Bool.noConfusion hmem
  have hfilterSome : ∀ (l : List (String × Nat)) (coords : List String),
      (∃ p ∈ l, coords.contains p.1 = true) →
      ∃ t, listMin ((l.filter (fun p => coords.contains p.1)).map Prod.snd) = some t := by
    intro l coords h
    obtain ⟨p, hp, hpred⟩ := h
    have hmem : p ∈ l.filter (fun p => coords.contains p.1) :=
      List.mem_filter.mpr ⟨hp, hpred⟩
    apply listMin_isSome_of_ne_nil
    simp only [ne_eq, List.map_eq_nil_iff]
    exact List.ne_nil_of_mem hmem
  refine ⟨?_, ?_, ?_, ?_⟩
  · intro cfg cfg2 coords tns hcoord hex
    obtain ⟨t, ht⟩ := hfilterSome _ coords hex
    unfold resolveTtl
    rw [← hcoord, ht]
  · intro cfg cfg2 coords tns hnil1 hnil2 htype hex
    obtain ⟨t, ht⟩ := hfilterSome _ tns hex
    unfold resolveTtl
    rw [hfilterNil _ _ hnil1, hfilterNil _ _ hnil2, ← htype]
    simp only [List.map_nil]
    rw [show listMin [] = none from rfl, ht]
  · intro cfg coords tns hnil1 hnil2
    unfold resolveTtl
    rw [hfilterNil _ _ hnil1, hfilterNil _ _ hnil2]
    simp [listMin]
  · intro cfg op st t hq hlk hcache ht hpos
    have hbne : ((some t : Option Nat) != some 0) = true := by
      simp only [bne_iff_ne, ne_eq, Option.some.injEq]
      omega
    constructor
    · simp only [execRequest, hq, Bool.false_eq_true, if_false, hlk, ht, hcache, hbne,
        Bool.and_self, if_true]
    · simp only [execRequest, hq, Bool.false_eq_true, if_false, hlk, ht, hcache, hbne,
        Bool.and_self, if_true, setStore, lookupStore, Option.map_some]
      simp [lookupStore]

def cfgTtlZeroUser : CacheConfig := ⟨some 0, [("User", 200)], [], none⟩

def opUsers : Operation :=
  ⟨"uq", false, ["Query.users"],
    ⟨.arr [.obj [("__typename", .str "User"), ("id", .str "1")]], false, []⟩⟩

theorem claim_ttl_tier_priority_witness :
    resolveTtl cfgTtlZeroUser [] ["User"]
      = resolveTtl (⟨none, [("User", 200)], [], none⟩ : CacheConfig) [] ["User"] ∧
    (execRequest cfgTtlZeroUser opUsers ⟨[], 0, 0⟩).2.2 = .miss true (some 200) ∧
    lookupStore (execRequest cfgTtlZeroUser opUsers ⟨[], 0, 0⟩).1.store "uq"
      = some ⟨opUsers.result, some (0 + 200), collectEntities opUsers.result.data⟩ := by
  have h2 := claim_ttl_tier_priority.2.1 cfgTtlZeroUser
    (⟨none, [("User", 200)], [], none⟩ : CacheConfig) [] ["User"]
    (by intro p hp; simp [cfgTtlZeroUser] at hp)
    (by intro p hp; simp at hp)
    rfl
    (by
      refine ⟨("User", 200), ?_, by decide⟩
      simp [cfgTtlZeroUser])
  have h4 := claim_ttl_tier_priority.2.2.2 cfgTtlZeroUser opUsers ⟨[], 0, 0⟩ 200
    rfl rfl rfl
    (by
      simp [opUsers, cfgTtlZeroUser, resolveTtl, listMin, collectTypenames,
        collectTypenamesElems, collectTypenamesFields, lookupField])
    (by omega)
  exact ⟨h2, h4.1, h4.2⟩

/-- Claim C5: for a cacheable operation (no mutation, cacheable result,
resolved TTL a positive t), repeating the identical operation within the
TTL window is served from the cache so the resolver runs exactly once,
and the first repetition after the TTL has elapsed misses so the resolver
runs again. -/
theorem claim_repeat_hits_within_ttl_misses_after
    (cfg : CacheConfig) (op : Operation) (d1 d2 t : Nat)
    (hq : op.isMutation = false)
    (hcache : cacheableResult cfg op.key op.result = true)
    (ht : resolveTtl cfg op.coordinates (collectTypenames op.result.data) = some t)
    (hpos : 0 < t) (hlt : d1 < t) (hge : t ≤ d2) :
    (execRequest cfg op ⟨[], 0, 0⟩).1.resolverCalls = 1 ∧
    (execRequest cfg op (tick d1 (execRequest cfg op ⟨[], 0, 0⟩).1)).2.2 = .hit ∧
    (execRequest cfg op (tick d1 (execRequest cfg op ⟨[], 0, 0⟩).1)).2.1 = op.result ∧
    (execRequest cfg op (tick d1 (execRequest cfg op ⟨[], 0, 0⟩).1)).1.resolverCalls = 1 ∧
    (execRequest cfg op (tick d2 (execRequest cfg op ⟨[], 0, 0⟩).1)).1.resolverCalls = 2 := by
  have hbne : ((some t : Option Nat) != some 0) = true := by
    simp only [bne_iff_ne, ne_eq, Option.some.injEq]
    omega
  have hstep1 : execRequest cfg op ⟨[], 0, 0⟩
      = (⟨[(op.key, ⟨op.result, some t, collectEntities op.result.data⟩)], 1, 0⟩,
         op.result, .miss true (some t)) := by
    simp [execRequest, hq, lookupFresh, lookupStore, ht, hcache, hbne, setStore]
  have hstep2 : tick d1 (⟨[(op.key, ⟨op.result, some t, collectEntities op.result.data⟩)], 1, 0⟩
        : EngineState)
      = ⟨[(op.key, ⟨op.result, some t, collectEntities op.result.data⟩)], 1, d1⟩ := by
    simp [tick, entryFresh]
    omega
  have hstep2d : tick d2 (⟨[(op.key, ⟨op.result, some t, collectEntities op.result.data⟩)], 1, 0⟩
        : EngineState)
      = ⟨[], 1, d2⟩ := by
    simp [tick, entryFresh]
    omega
  have hstep3 : execRequest cfg op
      (⟨[(op.key, ⟨op.result, some t, collectEntities op.result.data⟩)], 1, d1⟩ : EngineState)
      = (⟨[(op.key, ⟨op.result, some t, collectEntities op.result.data⟩)], 1, d1⟩,
         op.result, .hit) := by
    have hfresh : entryFresh ⟨op.result, some t, collectEntities op.result.data⟩ d1 = true := by
      simp [entryFresh]
      omega
    simp [execRequest, hq, lookupFresh, lookupStore, hfresh]
  have hstep4 : (execRequest cfg op (⟨[], 1, d2⟩ : EngineState)).1.resolverCalls = 2 := by
    simp [execRequest, hq, lookupFresh, lookupStore, ht, hcache, hbne]
  rw [hstep1]
  simp only [hstep2, hstep2d, hstep3, hstep4]
  exact ⟨trivial, trivial, trivial, trivial, trivial⟩

def opPlain : Operation := ⟨"q", false, [], ⟨.null, false, []⟩⟩

def cfgTtl100 : CacheConfig := ⟨some 100, [], [], none⟩

theorem claim_repeat_hits_within_ttl_misses_after_witness :
    (execRequest cfgTtl100 opPlain ⟨[], 0, 0⟩).1.resolverCalls = 1 ∧
    (execRequest cfgTtl100 opPlain (tick 50 (execRequest cfgTtl100 opPlain ⟨[], 0, 0⟩).1)).2.2
      = .hit ∧
    (execRequest cfgTtl100 opPlain
      (tick 150 (execRequest cfgTtl100 opPlain ⟨[], 0, 0⟩).1)).1.resolverCalls = 2 := by
  have h := claim_repeat_hits_within_ttl_misses_after cfgTtl100 opPlain 50 150 100
    rfl rfl
    (by simp [resolveTtl, cfgTtl100, opPlain, collectTypenames, listMin])
    (by omega) (by omega) (by omega)
  exact ⟨h.1, h.2.1, h.2.2.2.2⟩

/-- Claim C6: by default an execution result containing top-level errors
is never stored (each repetition re-invokes the resolver), while a
configured shouldCacheResult hook alone decides cacheability: when it
returns true, even a result with errors is cached and served on
subsequent executions. -/
theorem claim_errors_uncached_by_default_shouldCacheResult_overrides :
    (∀ (cfg : CacheConfig) (op : Operation) (st : EngineState),
      cfg.shouldCacheResult = none → op.isMutation = false →
      op.result.hasErrors = true → lookupStore st.store op.key = none →
      (execRequest cfg op st).1.store = st.store ∧
      (execRequest cfg op st).1.resolverCalls = st.resolverCalls + 1 ∧
      (execRequest cfg op (execRequest cfg op st).1).1.resolverCalls
        = st.resolverCalls + 2) ∧
    (∀ (cfg : CacheConfig) (op : Operation) (f : String → ExecResult → Bool),
      cfg.shouldCacheResult = some f → f op.key op.result = true →
      op.isMutation = false →
      resolveTtl cfg op.coordinates (collectTypenames op.result.data) ≠ some 0 →
      (execRequest cfg op ⟨[], 0, 0⟩).1.resolverCalls = 1 ∧
      (execRequest cfg op (execRequest cfg op ⟨[], 0, 0⟩).1).2.2 = .hit ∧
      (execRequest cfg op (execRequest cfg op ⟨[], 0, 0⟩).1).2.1 = op.result ∧
      (execRequest cfg op (execRequest cfg op ⟨[], 0, 0⟩).1).1.resolverCalls = 1) := by
  constructor
  · intro cfg op st hnone hq herr hlk
    have hcache : cacheableResult cfg op.key op.result = false := by
      simp [cacheableResult, hnone, herr]
    have hfresh : lookupFresh st.store st.now op.key = none := by
      simp [lookupFresh, hlk]
    have hstep : execRequest cfg op st
        = (⟨st.store, st.resolverCalls + 1, st.now⟩, op.result,
           .miss false (resolveTtl cfg op.coordinates (collectTypenames op.result.data))) := by
      simp [execRequest, hq, hfresh, hcache]
    have hstep2 : execRequest cfg op (⟨st.store, st.resolverCalls + 1, st.now⟩ : EngineState)
        = (⟨st.store, st.resolverCalls + 1 + 1, st.now⟩, op.result,
           .miss false (resolveTtl cfg op.coordinates (collectTypenames op.result.data))) := by
      simp [execRequest, hq, lookupFresh, hlk, hcache]
    refine ⟨by rw [hstep], by rw [hstep], ?_⟩
    rw [hstep, hstep2]
  · intro cfg op f hsome hf hq httl
    have hcache : cacheableResult cfg op.key op.result = true := by
      simp [cacheableResult, hsome, hf]
    cases ht : resolveTtl cfg op.coordinates (collectTypenames op.result.data) with
    | none =>
      have hstep1 : execRequest cfg op ⟨[], 0, 0⟩
          = (⟨[(op.key, ⟨op.result, none, collectEntities op.result.data⟩)], 1, 0⟩,
             op.result, .miss true none) := by
        simp [execRequest, hq, lookupFresh, lookupStore, ht, hcache, setStore]
      have hstep2 : execRequest cfg op
          (⟨[(op.key, ⟨op.result, none, collectEntities op.result.data⟩)], 1, 0⟩ : EngineState)
          = (⟨[(op.key, ⟨op.result, none, collectEntities op.result.data⟩)], 1, 0⟩,
             op.result, .hit) := by
        simp [execRequest, hq, lookupFresh, lookupStore, entryFresh]
      rw [hstep1]
      simp only [hstep2]
      exact ⟨trivial, trivial, trivial, trivial⟩
    | some u =>
      rw [ht] at httl
      have hu : 0 < u := by
        rcases Nat.eq_zero_or_pos u with h0 | h0
        · exact absurd (by rw [h0]) httl
        · exact h0
      have hbne : ((some u : Option Nat) != some 0) = true := by
        simp only [bne_iff_ne, ne_eq, Option.some.injEq]
        omega
      have hstep1 : execRequest cfg op ⟨[], 0, 0⟩
          = (⟨[(op.key, ⟨op.result, some u, collectEntities op.result.data⟩)], 1, 0⟩,
             op.result, .miss true (some u)) := by
        simp [execRequest, hq, lookupFresh, lookupStore, ht, hcache, hbne, setStore]
      have hfresh : entryFresh ⟨op.result, some u, collectEntities op.result.data⟩ 0 = true := by
        simp [entryFresh]
        omega
      have hstep2 : execRequest cfg op
          (⟨[(op.key, ⟨op.result, some u, collectEntities op.result.data⟩)], 1, 0⟩ : EngineState)
          = (⟨[(op.key, ⟨op.result, some u, collectEntities op.result.data⟩)], 1, 0⟩,
             op.result, .hit) := by
        simp [execRequest, hq, lookupFresh, lookupStore, hfresh]
      rw [hstep1]
      simp only [hstep2]
      exact ⟨trivial, trivial, trivial, trivial⟩

def opErr : Operation := ⟨"e", false, [], ⟨.null, true, []⟩⟩

def cfgCacheAll : CacheConfig := ⟨none, [], [], some (fun _ _ => true)⟩

theorem claim_errors_uncached_by_default_shouldCacheResult_overrides_witness :
    (execRequest cfgDefault opErr ⟨[], 0, 0⟩).1.store = ([] : Store) ∧
    (execRequest cfgDefault opErr (execRequest cfgDefault opErr ⟨[], 0, 0⟩).1).1.resolverCalls
      = 0 + 2 ∧
    (execRequest cfgCacheAll opErr ⟨[], 0, 0⟩).1.resolverCalls = 1 ∧
    (execRequest cfgCacheAll opErr (execRequest cfgCacheAll opErr ⟨[], 0, 0⟩).1).2.2 = .hit ∧
    (execRequest cfgCacheAll opErr (execRequest cfgCacheAll opErr ⟨[], 0, 0⟩).1).2.1
      = opErr.result := by
  have h1 := claim_errors_uncached_by_default_shouldCacheResult_overrides.1
    cfgDefault opErr ⟨[], 0, 0⟩ rfl rfl rfl rfl
  have h2 := claim_errors_uncached_by_default_shouldCacheResult_overrides.2
    cfgCacheAll opErr (fun _ _ => true) rfl rfl rfl
    (by simp [resolveTtl, cfgCacheAll, opErr, collectTypenames, listMin])
  exact ⟨h1.1, h1.2.2, h2.1, h2.2.1, h2.2.2.1⟩

/-- Claim C7: invalidating with an entity reference whose id is omitted
deletes exactly the cached entries referencing that typename (with any
id), and a subsequent lookup of such an entry's key misses. -/
theorem claim_invalidate_by_typename_removes_all (tn : String) :
    (∀ (st : Store) (k : String) (e : CacheEntry),
      (k, e) ∈ invalidate [⟨tn, none⟩] st ↔
        ((k, e) ∈ st ∧ ∀ ent ∈ e.entities, ent.typename ≠ tn)) ∧
    (∀ (st : Store) (k : String) (e : CacheEntry),
      (st.map Prod.fst).Nodup → lookupStore st k = some e →
      (∃ ent ∈ e.entities, ent.typename = tn) →
      lookupStore (invalidate [⟨tn, none⟩] st) k = none) := by
  have hpred : ∀ (e : CacheEntry),
      (e.entities.any (fun ent =>
        List.any [(⟨tn, none⟩ : InvalidationRef)] (fun r => matchesRef r ent))) = true ↔
      ∃ ent ∈ e.entities, ent.typename = tn := by
    intro e
    simp only [List.any_eq_true, List.mem_singleton, exists_eq_left, matchesRef,
      Bool.and_eq_true, beq_iff_eq, Bool.and_true]
    constructor
    · rintro ⟨x, hx, hh, -⟩
      exact ⟨x, hx, hh.symm⟩
    · rintro ⟨x, hx, hh⟩
      exact ⟨x, hx, hh.symm, trivial⟩
  constructor
  · intro st k e
    unfold invalidate
    rw [List.mem_filter]
    constructor
    · rintro ⟨hmem, hp⟩
      refine ⟨hmem, ?_⟩
      intro ent hent heq
      simp only [Bool.not_eq_true'] at hp
      have hTrue := (hpred e).mpr ⟨ent, hent, heq⟩
      rw [hp] at hTrue
      exact Bool.noConfusion hTrue
    · rintro ⟨hmem, hall⟩
      refine ⟨hmem, ?_⟩
      simp only [Bool.not_eq_true']
      rw [← Bool.not_eq_true]
      rw [hpred e]
      rintro ⟨ent, hent, heq⟩
      exact hall ent hent heq
  · intro st k e hnd hl hex
    unfold invalidate
    apply lookupStore_filter_eq_none st k e _ hnd hl
    simp only [Bool.not_eq_false']
    exact (hpred e).mpr hex

def commentEntry1 : CacheEntry := ⟨⟨.null, false, []⟩, none, [⟨"Comment", "1"⟩]⟩

def commentEntry2 : CacheEntry := ⟨⟨.null, false, []⟩, none, [⟨"Comment", "2"⟩]⟩

def commentStore : Store := [("c1", commentEntry1), ("c2", commentEntry2)]

theorem claim_invalidate_by_typename_removes_all_witness :
    ("c1", commentEntry1) ∉ invalidate [⟨"Comment", none⟩] commentStore ∧
    ("c2", commentEntry2) ∉ invalidate [⟨"Comment", none⟩] commentStore ∧
    lookupStore (invalidate [⟨"Comment", none⟩] commentStore) "c1" = none ∧
    lookupStore (invalidate [⟨"Comment", none⟩] commentStore) "c2" = none := by
  have h := claim_invalidate_by_typename_removes_all "Comment"
  refine ⟨?_, ?_, ?_, ?_⟩
  · intro hmem
    have hc := (h.1 commentStore "c1" commentEntry1).mp hmem
    exact hc.2 ⟨"Comment", "1"⟩ (by simp [commentEntry1]) rfl
  · intro hmem
    have hc := (h.1 commentStore "c2" commentEntry2).mp hmem
    exact hc.2 ⟨"Comment", "2"⟩ (by simp [commentEntry2]) rfl
  · exact h.2 commentStore "c1" commentEntry1 (by decide) rfl
      ⟨⟨"Comment", "1"⟩, by simp [commentEntry1], rfl⟩
  · exact h.2 commentStore "c2" commentEntry2 (by decide) rfl
      ⟨⟨"Comment", "2"⟩, by simp [commentEntry2], rfl⟩

/-- Claim C10: entity ids are normalized to strings when collected from
results (a numeric id 1 yields the reference (User, "1"), which is what
both the stored entity sets and the invalidatedEntities metadata carry),
and invalidation matches stored entries the same way whether the caller
passes the id as a number or as the corresponding string. -/
theorem claim_entity_ids_normalized_to_strings :
    (collectEntities (.obj [("updateUser",
        .obj [("__typename", .str "User"), ("id", .num 1)])]) = [⟨"User", "1"⟩]) ∧
    (∀ (tn : String) (n : Int) (st : Store),
      invalidate [⟨tn, some (.num n)⟩] st
        = invalidate [⟨tn, some (.str (toString n))⟩] st) ∧
    (∀ (cfg : CacheConfig) (op : Operation) (st : EngineState), op.isMutation = true →
      (execRequest cfg op st).2.2 = .invalidation (collectEntities op.result.data)) := by
  refine ⟨?_, ?_, ?_⟩
  · simp +decide [collectEntities, collectEntitiesFields, collectEntitiesElems,
      lookupField, normId]
  · intro tn n st
    simp [invalidate, matchesRef, normId]
  · intro cfg op st hm
    simp [execRequest, hm]

theorem claim_entity_ids_normalized_to_strings_witness :
    (execRequest cfgDefault sampleMutation sampleState).2.2
      = .invalidation (collectEntities sampleMutation.result.data) :=
  claim_entity_ids_normalized_to_strings.2.2 cfgDefault sampleMutation sampleState rfl

/-! ### Extension metadata attachment -/

/-- JavaScript object spread of two objects: the keys of `a` in order
(with the value from `b` when both carry the key) followed by the keys of
`b` absent from `a`. -/
def spreadMerge (a b : List (String × JValue)) : List (String × JValue) :=
  a.map (fun p => (p.1, (lookupField b p.1).getD p.2))
    ++ b.filter (fun q => (lookupField a q.1).isNone)

/-- The fields of an extensions object's `responseCache` entry. -/
def rcFields (ext : List (String × JValue)) : List (String × JValue) :=
  match lookupField ext "responseCache" with
  | some (.obj fs) => fs
  | _ => []

/-- Attach response-cache metadata to a result: the metadata is merged
into any existing `extensions.responseCache` object, the remaining
extension entries and the data are untouched. -/
def attachResponseCacheExtension (res : ExecResult) (meta : List (String × JValue)) :
    ExecResult :=
  ⟨res.data, res.hasErrors,
    spreadMerge res.extensions
      [("responseCache", .obj (spreadMerge (rcFields res.extensions) meta))]⟩

theorem lookupField_append (a b : List (String × JValue)) (k : String) :
    lookupField (a ++ b) k =
      match lookupField a k with
      | some v => some v
      | none => lookupField b k := by
  induction a with
  | nil => simp [lookupField]
  | cons p a ih =>
    obtain ⟨pk, pv⟩ := p
    by_cases hk : pk = k
    · subst hk
      simp [lookupField]
    · simp only [List.cons_append, lookupField, hk, if_false]
      exact ih

theorem lookupField_map_override (a b : List (String × JValue)) (k : String) :
    lookupField (a.map (fun p => (p.1, (lookupField b p.1).getD p.2))) k =
      match lookupField a k with
      | some v => some ((lookupField b k).getD v)
      | none => none := by
  induction a with
  | nil => simp [lookupField]
  | cons p a ih =>
    obtain ⟨pk, pv⟩ := p
    by_cases hk : pk = k
    · subst hk
      simp [lookupField]
    · simp only [List.map_cons, lookupField, hk, if_false]
      exact ih

theorem lookupField_filter_key (b : List (String × JValue)) (k : String)
    (pred : String → Bool) :
    lookupField (b.filter (fun q => pred q.1)) k =
      if pred k then lookupField b k else none := by
  induction b with
  | nil => simp [lookupField]
  | cons q b ih =>
    obtain ⟨qk, qv⟩ := q
    rw [List.filter_cons]
    by_cases hq : pred qk = true
    · simp only [hq, if_true]
      by_cases hk : qk = k
      · subst hk
        simp [lookupField, hq]
      · rw [show lookupField ((qk, qv) :: b) k = lookupField b k from by simp [lookupField, hk]]
        simp only [lookupField, hk, if_false]
        exact ih
    · simp only [hq, Bool.false_eq_true, if_false]
      by_cases hk : qk = k
      · subst hk
        simp only [ih]
        have hq' : pred qk = false := by
          cases hpred : pred qk
          · rfl
          · exact absurd hpred hq
        simp [hq']
      · rw [show lookupField ((qk, qv) :: b) k = lookupField b k from by simp [lookupField, hk]]
        exact ih

theorem lookupField_spreadMerge (a b : List (String × JValue)) (k : String) :
    lookupField (spreadMerge a b) k =
      match lookupField a k with
      | some v => some ((lookupField b k).getD v)
      | none => lookupField b k := by
  unfold spreadMerge
  rw [lookupField_append, lookupField_map_override,
    lookupField_filter_key b k (fun s => (lookupField a s).isNone)]
  cases h : lookupField a k with
  | none => simp [h]
  | some v => simp [h]

/-- Claim C9: attaching response-cache extension metadata never changes
the data of a result, preserves every other pre-existing extensions
entry, and merges the metadata into an existing
`extensions.responseCache` object instead of replacing it. -/
theorem claim_extension_metadata_additive (res : ExecResult)
    (meta : List (String × JValue)) :
    (attachResponseCacheExtension res meta).data = res.data ∧
    (∀ (k : String) (v : JValue), k ≠ "responseCache" →
      lookupField res.extensions k = some v →
      lookupField (attachResponseCacheExtension res meta).extensions k = some v) ∧
    (∀ (k : String) (v : JValue),
      lookupField (rcFields res.extensions) k = some v → lookupField meta k = none →
      lookupField (rcFields (attachResponseCacheExtension res meta).extensions) k
        = some v) ∧
    (∀ (k : String) (v : JValue), lookupField meta k = some v →
      lookupField (rcFields (attachResponseCacheExtension res meta).extensions) k
        = some v) := by
  have hrc : rcFields (attachResponseCacheExtension res meta).extensions
      = spreadMerge (rcFields res.extensions) meta := by
    show rcFields (spreadMerge res.extensions
      [("responseCache", .obj (spreadMerge (rcFields res.extensions) meta))]) = _
    unfold rcFields
    rw [lookupField_spreadMerge]
    cases h : lookupField res.extensions "responseCache" with
    | none => simp [lookupField]
    | some v => simp [lookupField]
  refine ⟨rfl, ?_, ?_, ?_⟩
  · intro k v hk hv
    show lookupField (spreadMerge res.extensions
      [("responseCache", .obj (spreadMerge (rcFields res.extensions) meta))]) k = some v
    rw [lookupField_spreadMerge, hv]
    simp [lookupField, Ne.symm hk]
  · intro k v hv hmeta
    rw [hrc, lookupField_spreadMerge, hv, hmeta]
    rfl
  · intro k v hv
    rw [hrc, lookupField_spreadMerge, hv]
    cases h : lookupField (rcFields res.extensions) k <;> rfl

def resWithExtensions : ExecResult :=
  ⟨.str "data", false,
    [("myExtension", .str "myExtensionValue"),
     ("responseCache", .obj [("old", .num 1)])]⟩

theorem claim_extension_metadata_additive_witness :
    (attachResponseCacheExtension resWithExtensions [("hit", .bool false)]).data
      = resWithExtensions.data ∧
    lookupField (attachResponseCacheExtension resWithExtensions
      [("hit", .bool false)]).extensions "myExtension" = some (.str "myExtensionValue") ∧
    lookupField (rcFields (attachResponseCacheExtension resWithExtensions
      [("hit", .bool false)]).extensions) "old" = some (.num 1) ∧
    lookupField (rcFields (attachResponseCacheExtension resWithExtensions
      [("hit", .bool false)]).extensions) "hit" = some (.bool false) := by
  have h := claim_extension_metadata_additive resWithExtensions [("hit", .bool false)]
  exact ⟨h.1,
    h.2.1 "myExtension" (.str "myExtensionValue") (by decide) rfl,
    h.2.2.1 "old" (.num 1) rfl rfl,
    h.2.2.2 "hit" (.bool false) rfl⟩

/-! ### Typename/id bookkeeping injection and stripping

Modelled from the spec: on the miss path the engine augments the executed
selection with aliased `__typename`/`id` bookkeeping fields and strips the
injected fields from the final payload, so the caller sees typename data
exactly where their own selection (aliases included) requested it. -/

/-- One field of a selection set: response key (the alias, equal to the
field name when no alias is given), the selected field name, and the
sub-selection. -/
inductive SelField where
  | mk (key : String) (name : String) (sub : List SelField)

def SelField.key : SelField → String
  | ⟨k, _, _⟩ => k

def SelField.name : SelField → String
  | ⟨_, n, _⟩ => n

def SelField.sub : SelField → List SelField
  | ⟨_, _, s⟩ => s

/-- Server-side data: scalars, nulls, typed objects and lists. -/
inductive DataVal where
  | scalar (s : String)
  | nullv
  | obj (tn : String) (fields : List (String × DataVal))
  | listv (xs : List DataVal)

/-- Structural induction principle for the nested inductive `DataVal`. -/
theorem DataVal.myInduct {P : DataVal → Prop}
    (hscalar : ∀ s, P (.scalar s)) (hnull : P .nullv)
    (hobj : ∀ tn fields, (∀ p ∈ fields, P p.2) → P (.obj tn fields))
    (hlist : ∀ xs, (∀ x ∈ xs, P x) → P (.listv xs)) : ∀ v, P v
  | .scalar s => hscalar s
  | .nullv => hnull
  | .obj tn fields => hobj tn fields
      (fun p hp => DataVal.myInduct hscalar hnull hobj hlist p.2)
  | .listv xs => hlist xs (fun x hx => DataVal.myInduct hscalar hnull hobj hlist x)
termination_by v => sizeOf v
decreasing_by
  · obtain ⟨k, v⟩ := p
    have h1 := List.sizeOf_lt_of_mem hp
    simp only [DataVal.obj.sizeOf_spec, Prod.mk.sizeOf_spec] at *
    omega
  · have := List.sizeOf_lt_of_mem hx
    simp only [DataVal.listv.sizeOf_spec]
    omega

def lookupData (fields : List (String × DataVal)) (name : String) : DataVal :=
  match fields with
  | [] => .nullv
  | (k, v) :: rest => if k = name then v else lookupData rest name

theorem sizeOf_lookupData (fields : List (String × DataVal)) (name : String) :
    sizeOf (lookupData fields name) ≤ sizeOf fields := by
  induction fields with
  | nil => simp [lookupData]
  | cons p rest ih =>
    obtain ⟨k, v⟩ := p
    by_cases hk : k = name
    · simp only [lookupData, hk, if_true]
      simp only [List.cons.sizeOf_spec, Prod.mk.sizeOf_spec]
      omega
    · simp only [lookupData, hk, if_false]
      simp only [List.cons.sizeOf_spec, Prod.mk.sizeOf_spec]
      omega

mutual

/-- Execute a selection set against a data value: scalars and nulls
ignore the selection, lists map over their elements, and objects produce
one response field per selected field, with `__typename` resolved from
the object's type name and every other name resolved from the object's
fields (missing fields resolve to null). -/
def execSel (sel : List SelField) : DataVal → JValue
  | .scalar s => .str s
  | .nullv => .null
  | .listv xs => .arr (execSelList sel xs)
  | .obj tn fields => .obj (execSelFields sel tn fields)
termination_by d => sizeOf sel + sizeOf d

def execSelList (sel : List SelField) : List DataVal → List JValue
  | [] => []
  | x :: xs => execSel sel x :: execSelList sel xs
termination_by xs => sizeOf sel + sizeOf xs

def execSelFields : List SelField → String → List (String × DataVal) →
    List (String × JValue)
  | [], _, _ => []
  | ⟨key, name, sub⟩ :: rest, tn, fields =>
    (key, if name = "__typename" then .str tn else execSel sub (lookupData fields name))
      :: execSelFields rest tn fields
termination_by sel tn fields => sizeOf sel + sizeOf fields
decreasing_by
  all_goals
    simp only [List.cons.sizeOf_spec, SelField.mk.sizeOf_spec]
    have hlk := sizeOf_lookupData fields name
    omega

end

/-- The aliases under which the engine requests its bookkeeping fields. -/
def bookkeepingFields : List SelField :=
  [⟨"__responseCacheTypeName", "__typename", []⟩, ⟨"__responseCacheId", "id", []⟩]

/-- Add the bookkeeping fields to every non-empty sub-selection. -/
def injectSub : List SelField → List SelField
  | [] => []
  | ⟨key, name, sub⟩ :: rest =>
    ⟨key, name, if sub.isEmpty then [] else injectSub sub ++ bookkeepingFields⟩
      :: injectSub rest
termination_by sel => sizeOf sel

/-- The selection the engine actually executes on the miss path. -/
def injectTop (sel : List SelField) : List SelField :=
  injectSub sel ++ bookkeepingFields

def reservedKey (k : String) : Bool :=
  k == "__responseCacheTypeName" || k == "__responseCacheId"

mutual

/-- Remove the injected bookkeeping fields from a payload. -/
def stripBookkeeping : JValue → JValue
  | .null => .null
  | .bool b => .bool b
  | .num n => .num n
  | .str s => .str s
  | .arr xs => .arr (stripElems xs)
  | .obj fs => .obj (stripFields fs)
termination_by v => sizeOf v

def stripElems : List JValue → List JValue
  | [] => []
  | x :: xs => stripBookkeeping x :: stripElems xs
termination_by xs => sizeOf xs

def stripFields : List (String × JValue) → List (String × JValue)
  | [] => []
  | (k, v) :: fs =>
    if reservedKey k then stripFields fs else (k, stripBookkeeping v) :: stripFields fs
termination_by fs => sizeOf fs

end

/-- No response key of the caller's selection collides with the
engine's reserved bookkeeping aliases, at any depth. -/
def selKeysOk : List SelField → Prop
  | [] => True
  | ⟨key, _, sub⟩ :: rest => reservedKey key = false ∧ selKeysOk sub ∧ selKeysOk rest
termination_by sel => sizeOf sel

theorem lookupData_mem_or_null (fields : List (String × DataVal)) (name : String) :
    lookupData fields name = .nullv ∨ ∃ p ∈ fields, lookupData fields name = p.2 := by
  induction fields with
  | nil => left; rfl
  | cons p rest ih =>
    obtain ⟨k, v⟩ := p
    by_cases hk : k = name
    · right
      exact ⟨(k, v), List.mem_cons_self _ _, by simp [lookupData, hk]⟩
    · rcases ih with h | ⟨q, hq, hval⟩
      · left
        simpa [lookupData, hk] using h
      · right
        exact ⟨q, List.mem_cons_of_mem _ hq, by simpa [lookupData, hk] using hval⟩

theorem execSelFields_append (a b : List SelField) (tn : String)
    (fields : List (String × DataVal)) :
    execSelFields (a ++ b) tn fields
      = execSelFields a tn fields ++ execSelFields b tn fields := by
  induction a with
  | nil => simp [execSelFields]
  | cons f a ih =>
    obtain ⟨key, name, sub⟩ := f
    simp [execSelFields, ih]

theorem stripFields_append (a b : List (String × JValue)) :
    stripFields (a ++ b) = stripFields a ++ stripFields b := by
  induction a with
  | nil => simp [stripFields]
  | cons p a ih =>
    obtain ⟨k, v⟩ := p
    by_cases hk : reservedKey k = true
    · simp [stripFields, hk, ih]
    · simp [stripFields, hk, ih]

theorem stripFields_bookkeeping (tn : String) (fields : List (String × DataVal)) :
    stripFields (execSelFields bookkeepingFields tn fields) = [] := by
  simp +decide [bookkeepingFields, execSelFields, stripFields, reservedKey]

theorem strip_execSel_nil : ∀ d : DataVal,
    stripBookkeeping (execSel ([] : List SelField) d) = execSel [] d := by
  intro d
  induction d using DataVal.myInduct with
  | hscalar s => simp [execSel, stripBookkeeping]
  | hnull => simp [execSel, stripBookkeeping]
  | hobj tn fields ih => simp [execSel, execSelFields, stripBookkeeping, stripFields]
  | hlist xs ih =>
    simp only [execSel, stripBookkeeping, JValue.arr.injEq]
    induction xs with
    | nil => simp [execSelList, stripElems]
    | cons x xs ihl =>
      simp only [execSelList, stripElems, List.cons.injEq]
      exact ⟨ih x (List.mem_cons_self _ _),
        ihl (fun y hy => ih y (List.mem_cons_of_mem _ hy))⟩

theorem stripElems_execSelList_aux :
    ∀ (xs : List DataVal), (∀ x ∈ xs, ∀ s : List SelField, selKeysOk s →
      stripBookkeeping (execSel (injectTop s) x) = execSel s x) →
    ∀ (sel : List SelField), selKeysOk sel →
      stripElems (execSelList (injectTop sel) xs) = execSelList sel xs := by
  intro xs
  induction xs with
  | nil =>
    intro h sel hok
    simp [execSelList, stripElems]
  | cons x xs ihl =>
    intro h sel hok
    simp only [execSelList, stripElems, List.cons.injEq]
    exact ⟨h x (List.mem_cons_self _ _) sel hok,
      ihl (fun y hy => h y (List.mem_cons_of_mem _ hy)) sel hok⟩

theorem stripFields_execSelFields_aux :
    ∀ (sel : List SelField) (tn : String) (fields : List (String × DataVal)),
      selKeysOk sel →
      (∀ p ∈ fields, ∀ s : List SelField, selKeysOk s →
        stripBookkeeping (execSel (injectTop s) p.2) = execSel s p.2) →
      stripFields (execSelFields (injectSub sel) tn fields)
        = execSelFields sel tn fields := by
  intro sel
  induction sel with
  | nil =>
    intro tn fields hok h
    simp [injectSub, execSelFields, stripFields]
  | cons f rest ih =>
    obtain ⟨key, name, sub⟩ := f
    intro tn fields hok h
    have hok' : reservedKey key = false ∧ selKeysOk sub ∧ selKeysOk rest := by
      simpa [selKeysOk] using hok
    simp only [injectSub, execSelFields, stripFields, hok'.1, Bool.false_eq_true, if_false,
      List.cons.injEq, Prod.mk.injEq, true_and]
    refine ⟨?_, ih tn fields hok'.2.2 h⟩
    by_cases hname : name = "__typename"
    · simp [hname, stripBookkeeping]
    · simp only [hname, if_false]
      by_cases hsub : sub.isEmpty = true
      · have hsubnil : sub = [] := List.isEmpty_iff.mp hsub
      
        subst hsubnil
        simp only [List.isEmpty_nil, if_true]
        exact strip_execSel_nil _
      · simp only [hsub, Bool.false_eq_true, if_false]
        rcases lookupData_mem_or_null fields name with hn | ⟨p, hp, heq⟩
        · rw [hn]
          simp [execSel, stripBookkeeping]
        · rw [heq]
          exact h p hp sub hok'.2.1

theorem strip_injectTop_execSel : ∀ (d : DataVal) (sel : List SelField), selKeysOk sel →
    stripBookkeeping (execSel (injectTop sel) d) = execSel sel d := by
  intro d
  induction d using DataVal.myInduct with
  | hscalar s =>
    intro sel hok
    simp [execSel, stripBookkeeping]
  | hnull =>
    intro sel hok
    simp [execSel, stripBookkeeping]
  | hlist xs ih =>
    intro sel hok
    simp only [execSel, stripBookkeeping, JValue.arr.injEq]
    exact stripElems_execSelList_aux xs ih sel hok
  | hobj tn fields ih =>
    intro sel hok
    simp only [execSel, stripBookkeeping, JValue.obj.injEq]
    rw [injectTop, execSelFields_append, stripFields_append, stripFields_bookkeeping,
      List.append_nil]
    exact stripFields_execSelFields_aux sel tn fields hok ih

/-- Claim C8: on the miss path the engine executes the selection
augmented with its aliased typename/id bookkeeping fields and strips the
injected fields from the payload, so the data handed to the caller is
exactly what the caller's own selection (aliases included) produces:
`__typename` appears (possibly under an alias) exactly where the caller
requested it and nowhere else. -/
theorem claim_bookkeeping_injection_transparent (sel : List SelField) (d : DataVal)
    (hok : selKeysOk sel) :
    stripBookkeeping (execSel (injectTop sel) d) = execSel sel d :=
  strip_injectTop_execSel d sel hok

def selAliased : List SelField :=
  [⟨"user", "user", [⟨"foo", "__typename", []⟩, ⟨"id", "id", []⟩]⟩]

def dataQueryUser : DataVal := .obj "Query" [("user", .obj "User" [("id", .scalar "1")])]

theorem claim_bookkeeping_injection_transparent_witness :
    stripBookkeeping (execSel (injectTop selAliased) dataQueryUser)
      = execSel selAliased dataQueryUser :=
  claim_bookkeeping_injection_transparent selAliased dataQueryUser
    (by simp +decide [selAliased, selKeysOk, reservedKey])
